import Mathlib

/-!
Verification development for the Reaktoro repository sample.

Part I embeds the pure numeric utilities found in `src/Reaktoro/Core/Utils.cpp`
(`molarFractions`, `molalities`, `detail::parseChemicalFormula`) over exact
rationals, mirroring the C++ control flow.

Part II models the on-demand learning (smart) acceleration engine described in
the specification.  The engine's implementation (SmartKineticsSolver and the
associated reference store, cluster index, estimator, acceptance and learning
controllers) is not present under `src/` — only its Python binding
(`src/Reaktoro/Kinetics/SmartKineticsSolver.py.cxx`) and the diagnostic result
types (`OptimumStatistics` in `src/unnamed/part_000`) are — so those components
are modelled from the specification text, as indicated on each definition.
-/

namespace Reaktoro

/-! ## Part I.a — molarFractions (src/Reaktoro/Core/Utils.cpp, lines 26–34)

The C++ returns a `ChemicalVector`; the embedding tracks its value component
(the vector of molar fractions), which is what the claims are about.  The
derivative components of `ChemicalVector` live in headers not present under
`src/`.  `composition(n_)` wraps the plain vector as a `ChemicalVector` with
the same values, so it is the identity on the value component. -/

/-- Value component of `molarFractions` from `src/Reaktoro/Core/Utils.cpp`:
one species gives fraction one; otherwise the vector is divided by its total
when the total is nonzero, and a zero-initialized vector of the same size is
returned when the total is zero. -/
def molarFractions (n : List ℚ) : List ℚ :=
  if n.length = 1 then
    [1]
  else if n.sum ≠ 0 then
    n.map (fun a => a / n.sum)
  else
    List.replicate n.length 0

/-! ## Part I.b — molalities (src/Reaktoro/Core/Utils.cpp, lines 390–406)

The molar mass of water comes from `WaterConstants.hpp`, which is not under
`src/`; only its (positive) value matters here. -/

/-- The molar mass of water in kg/mol (value of `waterMolarMass` from
`Reaktoro/Thermodynamics/Water/WaterConstants.hpp`). -/
def waterMolarMass : ℚ := 18015268 / 1000000000

/-- Embedding of `molalities(n, iH2O)`: with a single species the output holds
`1/waterMolarMass` at the water index; otherwise division by the mass of water
`kgH2O = n[iH2O] * waterMolarMass` happens only when that mass is nonzero, and
the zero-mass branch returns a zero vector with `1/waterMolarMass` at the water
index.  The C++ leaves the non-water entries uninitialized in the one-species
branch; since `iH2O < n.size()` is asserted, that branch has a single entry and
the embedding zero-fills before setting it. -/
def molalities (n : List ℚ) (iH2O : ℕ) : List ℚ :=
  if n.length = 1 then
    (List.replicate n.length 0).set iH2O (1 / waterMolarMass)
  else if n.getD iH2O 0 * waterMolarMass ≠ 0 then
    n.map (fun a => a / (n.getD iH2O 0 * waterMolarMass))
  else
    (List.replicate n.length 0).set iH2O (1 / waterMolarMass)

/-! ## Part I.c — chemical formula parsing
(src/Reaktoro/Core/Utils.cpp, `detail::parseChemicalFormula`, lines 113–206)

Strings are embedded as `List Char`; the C locale character classifiers
correspond to Lean's ASCII `Char.isDigit`, `Char.isUpper`, `Char.isLower`,
`Char.isAlpha`.  Coefficients (C++ `double`) are embedded as exact rationals.
The C++ recursion on iterator ranges becomes recursion on the remaining span,
with the parenthesis case splitting the span at the matching `)`.  When a `(`
has no matching `)`, `findMatchedParenthesis` returns the end iterator, so the
all-lowercase scan runs over the whole tail after the `(`: if that tail is all
lowercase or empty the C++ returns the accumulated result (e.g. `Ca(aq` parses
to Ca with coefficient 1), and only otherwise does it advance past the end
iterator (undefined behaviour), which the embedding reports as a parse failure
(`none`). -/

namespace detail

/-- Characters accepted after the leading letter of an element symbol:
`find_if(begin+1, end, isupper(c) || !isalpha(c))` stops at the first
uppercase or non-alphabetic character. -/
def isElementBodyChar (c : Char) : Bool := c.isAlpha && !c.isUpper

/-- Embedding of `parseElementAtom`: returns the element symbol (empty when
the first character is lowercase) and the rest of the span. -/
def parseElementAtom (s : List Char) : List Char × List Char :=
  match s with
  | [] => ([], [])
  | c :: rest =>
      if c.isLower then ([], rest.dropWhile isElementBodyChar)
      else (c :: rest.takeWhile isElementBodyChar, rest.dropWhile isElementBodyChar)

/-- Characters consumed by `parseNumAtoms`: digits and the decimal point. -/
def isNumChar (c : Char) : Bool := c.isDigit || c == '.'

/-- Value of a digit string read in base ten. -/
def digitsVal (cs : List Char) : ℕ := cs.foldl (fun a c => 10 * a + (c.toNat - 48)) 0

/-- Embedding of C `atof` restricted to the digit/dot tokens produced by
`parseNumAtoms`: an integer part, an optional fractional part, and any second
dot with what follows ignored. -/
def atof (s : List Char) : ℚ :=
  match s.dropWhile Char.isDigit with
  | '.' :: r2 =>
      (digitsVal (s.takeWhile Char.isDigit) : ℚ) +
        (digitsVal (r2.takeWhile Char.isDigit) : ℚ) / (10 : ℚ) ^ (r2.takeWhile Char.isDigit).length
  | _ => (digitsVal (s.takeWhile Char.isDigit) : ℚ)

/-- Embedding of `parseNumAtoms`: reads a leading number (defaulting to 1)
and returns it with the rest of the span. -/
def parseNumAtoms (s : List Char) : ℚ × List Char :=
  match s with
  | [] => (1, [])
  | c :: _ =>
      if isNumChar c then (atof (s.takeWhile isNumChar), s.dropWhile isNumChar)
      else (1, s)

/-- Embedding of `findMatchedParenthesis` as a span splitter: given the span
following a `(` and the current nesting level, returns the spans strictly
inside and strictly after the matching `)`, or `none` when unmatched. -/
def splitParen : List Char → ℕ → Option (List Char × List Char)
  | [], _ => none
  | c :: t, level =>
      if c = ')' then
        if level = 0 then some ([], t)
        else
          match splitParen t (level - 1) with
          | some (a, b) => some (c :: a, b)
          | none => none
      else if c = '(' then
        match splitParen t (level + 1) with
        | some (a, b) => some (c :: a, b)
        | none => none
      else
        match splitParen t level with
        | some (a, b) => some (c :: a, b)
        | none => none

/-- The update of the result container in the uppercase branch of
`parseChemicalFormulaAux`: increment the coefficient of an element already
present (`indexfn` finds the first match), otherwise append the new pair. -/
def addCoeff (result : List (String × ℚ)) (element : String) (v : ℚ) :
    List (String × ℚ) :=
  match result with
  | [] => [(element, v)]
  | p :: ps => if p.1 = element then (p.1, p.2 + v) :: ps else p :: addCoeff ps element v

theorem length_dropWhile_le (p : Char → Bool) (l : List Char) :
    (l.dropWhile p).length ≤ l.length := by
  induction l with
  | nil => simp [List.dropWhile]
  | cons c t ih =>
      rw [List.dropWhile]
      cases p c <;> simp <;> omega

theorem parseNumAtoms_length_le (s : List Char) :
    (parseNumAtoms s).2.length ≤ s.length := by
  match s with
  | [] => simp [parseNumAtoms]
  | c :: rest =>
      rw [parseNumAtoms]
      cases h : isNumChar c <;> simp [h]
      exact le_trans (length_dropWhile_le _ _) (by omega)

theorem parseNumAtoms_length_lt (c : Char) (rest : List Char) (h : isNumChar c = true) :
    (parseNumAtoms (c :: rest)).2.length < (c :: rest).length := by
  rw [parseNumAtoms]
  simp only [h, if_pos]
  rw [List.dropWhile_cons_of_pos h]
  have := length_dropWhile_le isNumChar rest
  simp
  omega

theorem parseElementAtom_length_le (c : Char) (rest : List Char) :
    (parseElementAtom (c :: rest)).2.length ≤ rest.length := by
  rw [parseElementAtom]
  cases h : c.isLower <;> simp [h] <;> exact length_dropWhile_le _ _

theorem splitParen_length {t : List Char} {level : ℕ} {a b : List Char}
    (h : splitParen t level = some (a, b)) : a.length + b.length + 1 = t.length := by
  induction t generalizing level a b with
  | nil => simp [splitParen] at h
  | cons c t ih =>
      rw [splitParen] at h
      by_cases hc : c = ')'
      · simp only [hc, if_pos rfl] at h
        by_cases hl : level = 0
        · simp only [hl, if_pos rfl, Option.some.injEq, Prod.mk.injEq] at h
          obtain ⟨rfl, rfl⟩ := h
          simp
        · simp only [hl, if_neg hl] at h
          cases hs : splitParen t (level - 1) with
          | none => rw [hs] at h; exact absurd h (by simp)
          | some ab =>
              rw [hs] at h
              obtain ⟨a0, b0⟩ := ab
              simp only [Option.some.injEq, Prod.mk.injEq] at h
              obtain ⟨rfl, rfl⟩ := h
              have := ih hs
              simp
              omega
      · simp only [if_neg hc] at h
        by_cases hc2 : c = '('
        · simp only [hc2, if_pos rfl] at h
          cases hs : splitParen t (level + 1) with
          | none => rw [hs] at h; exact absurd h (by simp)
          | some ab =>
              rw [hs] at h
              obtain ⟨a0, b0⟩ := ab
              simp only [Option.some.injEq, Prod.mk.injEq] at h
              obtain ⟨rfl, rfl⟩ := h
              have := ih hs
              simp
              omega
        · simp only [if_neg hc2] at h
          cases hs : splitParen t level with
          | none => rw [hs] at h; exact absurd h (by simp)
          | some ab =>
              rw [hs] at h
              obtain ⟨a0, b0⟩ := ab
              simp only [Option.some.injEq, Prod.mk.injEq] at h
              obtain ⟨rfl, rfl⟩ := h
              have := ih hs
              simp
              omega

/-- Embedding of `parseChemicalFormulaAux`: walks the span accumulating
`(element, coefficient)` pairs into `result`, scaled by `scalar`.  The branch
structure mirrors the C++ exactly: leading multiplier digits, an element atom
with its count, a parenthesized group (ignored entirely when it holds only
lowercase letters, i.e. an aggregate-state suffix; with an unmatched `(` the
group extends to the end of the span and parsing succeeds exactly when that
tail is all lowercase or empty, the remaining case being undefined behaviour
in the C++), the hydrate separators `*`/`:` which reset the scalar to 1, the
charge starters `+`/`-`/`[` which end parsing, and an error (`none`) on any
other character. -/
def parseChemicalFormulaAux : List Char → List (String × ℚ) → ℚ →
    Option (List (String × ℚ))
  | [], result, _ => some result
  | c :: rest, result, scalar =>
    if hd : c.isDigit then
      let pr := parseNumAtoms (c :: rest)
      parseChemicalFormulaAux pr.2 result (scalar * pr.1)
    else if hu : c.isUpper then
      let pe := parseElementAtom (c :: rest)
      let pn := parseNumAtoms pe.2
      parseChemicalFormulaAux pn.2 (addCoeff result (String.mk pe.1) (scalar * pn.1)) scalar
    else if c = '(' then
      match hs : splitParen rest 0 with
      | none =>
        if rest.all Char.isLower then some result
        else none
      | some (inside, after) =>
        if inside.all Char.isLower then some result
        else
          let pn := parseNumAtoms after
          match parseChemicalFormulaAux inside result (scalar * pn.1) with
          | none => none
          | some r1 => parseChemicalFormulaAux pn.2 r1 scalar
    else if c = '*' ∨ c = ':' then
      parseChemicalFormulaAux rest result 1
    else if c = '+' ∨ c = '-' ∨ c = '[' then
      some result
    else none
termination_by s _ _ => s.length
decreasing_by
  · have h1 : isNumChar c = true := by simp [isNumChar, hd]
    exact parseNumAtoms_length_lt c rest h1
  · have h1 := parseElementAtom_length_le c rest
    have h2 := parseNumAtoms_length_le (parseElementAtom (c :: rest)).2
    simp only [List.length_cons]
    omega
  · have := splitParen_length hs
    simp only [List.length_cons]
    omega
  · have h1 := splitParen_length hs
    have h2 := parseNumAtoms_length_le after
    simp only [List.length_cons]
    omega
  · simp only [List.length_cons]
    omega

/-- Embedding of `startswith` from `StringUtils.hpp` (a prefix test). -/
def startswith : List Char → List Char → Bool
  | [], _ => true
  | _ :: _, [] => false
  | p :: ps, c :: cs => p = c && startswith ps cs

/-- The round-off cleanup applied to every final coefficient:
`pair.second = (pair.second + 1e8) - 1e8`. -/
def roundCoeff (c : ℚ) : ℚ := (c + 100000000) - 100000000

/-- Embedding of `detail::parseChemicalFormula`: charged-electron formulas
(`e-`, `e[-]` prefixes) parse to the empty list; otherwise the recursive
parser runs on the whole string and every coefficient gets the round-off
cleanup. -/
def parseChemicalFormula (formula : String) : Option (List (String × ℚ)) :=
  if startswith ['e', '-'] formula.toList || startswith ['e', '[', '-', ']'] formula.toList then
    some []
  else
    (parseChemicalFormulaAux formula.toList [] 1).map
      (List.map (fun p => (p.1, roundCoeff p.2)))

end detail

/-! ## Part II — the on-demand learning (smart) acceleration engine

The components below are modelled from the specification (§2–§4.5, §7): the
engine's implementation is not among the sampled sources.  The model keeps the
parts the claims are about: amounts vectors, equality restrictions, first-order
extrapolation, the four ordered acceptance checks, LRU-bounded insertion, and
failure propagation.  Dual quantities and auxiliary scalar properties of a
Solution play no role in the claims and are omitted from the model. -/

namespace SmartEngine

/-- Embedding of `OptimumSolution` from `src/unnamed/part_000` (namespace
`Reaktor` there): primal and dual solutions of the optimisation problem. -/
structure OptimumSolution where
  x : List ℚ
  y : List ℚ
  z : List ℚ
deriving DecidableEq

/-- Embedding of `OptimumStatistics` from `src/unnamed/part_000`: the
convergence diagnostics of an optimisation calculation (wall times in
seconds embedded as rationals). -/
structure OptimumStatistics where
  converged : Bool
  num_iterations : ℕ
  num_objective_evals : ℕ
  convergence_rate : ℚ
  error : ℚ
  time : ℚ
  time_objective_evals : ℚ
  time_constraint_evals : ℚ
  time_linear_system : ℚ
deriving DecidableEq

/-- Embedding of `OptimumResult` from `src/unnamed/part_000`. -/
structure OptimumResult where
  solution : OptimumSolution
  statistics : OptimumStatistics
deriving DecidableEq

/-- Modelled from the spec: an explicit equality restriction supplied in
Conditions — a linear balance equation over the constituent amounts (§3, §4.3
check 4). -/
structure EqRestriction where
  coeffs : List ℚ
  rhs : ℚ
deriving DecidableEq

/-- Modelled from the spec: Conditions — a fixed-size numeric input vector
plus an optional set of auxiliary equality restrictions (§3). -/
structure Conditions where
  vec : List ℚ
  restrictions : List EqRestriction
deriving DecidableEq

/-- Modelled from the spec: Solution — the amounts of every constituent
returned by an exact or estimated solve (§3). -/
structure Solution where
  amounts : List ℚ
deriving DecidableEq

/-- Modelled from the spec: Sensitivity — the Jacobian mapping perturbations
of Conditions to perturbations of the Solution amounts (§3), as a matrix. -/
abbrev Sensitivity : Type := List (List ℚ)

/-- Modelled from the spec: `SolveFailure` — the rigorous oracle could not
converge (§7); it carries the oracle's diagnostic payload, here the
convergence diagnostics of `OptimumStatistics`. -/
structure SolveFailure where
  statistics : OptimumStatistics
deriving DecidableEq

/-- Modelled from the spec: Reference Record — {Conditions, Solution,
Sensitivity, Fingerprint, creation time / usage counter} (§3); immutable
after creation. -/
structure ReferenceRecord where
  conditions : Conditions
  solution : Solution
  sensitivity : Sensitivity
  fingerprint : List Bool
  lastUsed : ℕ
deriving DecidableEq

/-- Modelled from the spec: the recognized configuration options — distance
radius, amount floor, error tolerance, balance tolerance (§4.3), the Reference
Store capacity (§4.4), and the switch disabling estimation (§8, fallback
correctness). -/
structure Options where
  capacity : ℕ
  distanceRadius : ℚ
  amountFloor : ℚ
  errorTol : ℚ
  balanceTol : ℚ
  estimationEnabled : Bool
deriving DecidableEq

/-- Modelled from the spec: the shared mutable state — the Reference Store
with a clock used to stamp records for the LRU policy (§3, §4.1).  The
Cluster Index is the derived partition of the store by fingerprint
(`clusterOf`), created lazily per fingerprint (§3). -/
structure EngineState where
  store : List ReferenceRecord
  clock : ℕ
deriving DecidableEq

/-- Componentwise difference of two vectors. -/
def subVec (a b : List ℚ) : List ℚ := List.zipWith (fun x y => x - y) a b

/-- Componentwise sum of two vectors. -/
def addVec (a b : List ℚ) : List ℚ := List.zipWith (fun x y => x + y) a b

/-- Dot product of two vectors. -/
def dotVec (a b : List ℚ) : ℚ := (List.zipWith (fun x y => x * y) a b).sum

/-- Matrix-vector product, row by row. -/
def matVec (m : List (List ℚ)) (v : List ℚ) : List ℚ := m.map (fun row => dotVec row v)

/-- Modelled from the spec: squared Euclidean distance on the Conditions
vector — the default continuous distance metric of the Cluster Index (§4.1). -/
def dist2 (a b : List ℚ) : ℚ := ((subVec a b).map (fun x => x * x)).sum

/-- Modelled from the spec: Fingerprint — which constituents are active in a
Solution, i.e. above the configured non-negativity floor (§3). -/
def fingerprint (opts : Options) (sol : Solution) : List Bool :=
  sol.amounts.map (fun a => decide (opts.amountFloor < a))

/-- Modelled from the spec: the Cluster of a Fingerprint — the records of the
store sharing that fingerprint (§3); clusters are a derived view of the store,
created lazily with the first record of a new fingerprint. -/
def clusterOf (store : List ReferenceRecord) (fp : List Bool) : List ReferenceRecord :=
  store.filter (fun r => decide (r.fingerprint = fp))

/-- Modelled from the spec: the cheap candidate-fingerprint heuristic of
`lookup` — reuse the fingerprint of the most recently used cluster (§4.1);
with insertion appending to the store, that is the last record's. -/
def mostRecentFingerprint (store : List ReferenceRecord) : Option (List Bool) :=
  store.getLast?.map ReferenceRecord.fingerprint

/-- Modelled from the spec: nearest-neighbor search within a cluster by the
distance `dist2`, ties broken by insertion order, earliest wins (§4.1). -/
def nearestIn (cluster : List ReferenceRecord) (conds : Conditions) :
    Option (ReferenceRecord × ℚ) :=
  match cluster with
  | [] => none
  | r :: rs =>
      some (rs.foldl (fun best r2 =>
        if dist2 conds.vec r2.conditions.vec < best.2 then
          (r2, dist2 conds.vec r2.conditions.vec)
        else best) (r, dist2 conds.vec r.conditions.vec))

/-- Modelled from the spec: `lookup(conditions)` of the Cluster Index — find
the candidate cluster by the fingerprint heuristic and search it for the
nearest record; report a miss when there is no candidate cluster (§4.1). -/
def lookupNearest (store : List ReferenceRecord) (conds : Conditions) :
    Option (ReferenceRecord × ℚ) :=
  match mostRecentFingerprint store with
  | none => none
  | some fp => nearestIn (clusterOf store fp) conds

/-- Modelled from the spec: `estimate(conditions, referenceRecord)` — the
first-order Taylor extrapolation
`referenceRecord.Solution + referenceRecord.Sensitivity · (conditions −
referenceRecord.Conditions)`, a single matrix-vector product (§4.2). -/
def estimate (conds : Conditions) (ref : ReferenceRecord) : Solution :=
  ⟨addVec ref.solution.amounts
    (matVec ref.sensitivity (subVec conds.vec ref.conditions.vec))⟩

/-- The four acceptance checks, identified for diagnostics (§4.3, §6). -/
inductive RejectReason where
  | distance
  | feasibility
  | localError
  | balance
deriving DecidableEq

/-- Modelled from the spec: check 1 — the nearest-neighbor distance must be
below the configured radius (§4.3). -/
def distanceCheck (opts : Options) (dist : ℚ) : Bool :=
  dist ≤ opts.distanceRadius

/-- Modelled from the spec: check 2 — every estimated constituent amount must
be ≥ the non-negativity floor (§4.3). -/
def feasibilityCheck (opts : Options) (est : Solution) : Bool :=
  est.amounts.all (fun a => opts.amountFloor ≤ a)

/-- Modelled from the spec: check 3 — the local-error proxy, here the simplest
conforming implementation: the squared magnitude of the step relative to a
configured tolerance (§4.3). -/
def localErrorCheck (opts : Options) (conds : Conditions) (ref : ReferenceRecord) : Bool :=
  dist2 conds.vec ref.conditions.vec ≤ opts.errorTol

/-- Modelled from the spec: check 4 — the recomputed balance residual of the
estimate against the equality restrictions in Conditions must be below
tolerance (§4.3). -/
def balanceCheck (opts : Options) (conds : Conditions) (est : Solution) : Bool :=
  conds.restrictions.all (fun r => |dotVec r.coeffs est.amounts - r.rhs| ≤ opts.balanceTol)

/-- Modelled from the spec: `accept(conditions, estimate, referenceRecord)` of
the Acceptance Controller — the four checks applied in order, first failing
check rejects (short-circuit); `none` means accepted (§4.3). -/
def acceptVerdict (opts : Options) (conds : Conditions) (dist : ℚ)
    (est : Solution) (ref : ReferenceRecord) : Option RejectReason :=
  if ¬ distanceCheck opts dist then some .distance
  else if ¬ feasibilityCheck opts est then some .feasibility
  else if ¬ localErrorCheck opts conds ref then some .localError
  else if ¬ balanceCheck opts conds est then some .balance
  else none

/-- Modelled from the spec: the least-recently-used stamp present in a store
(0 for an empty store). -/
def minLastUsed : List ReferenceRecord → ℕ
  | [] => 0
  | [r] => r.lastUsed
  | r :: rs => min r.lastUsed (minLastUsed rs)

/-- Modelled from the spec: evict the least-recently-used Reference Record
(§4.1 eviction policy); ties broken toward the earliest-inserted record. -/
def evictLRU : List ReferenceRecord → List ReferenceRecord
  | [] => []
  | [_] => []
  | r :: rs => if r.lastUsed ≤ minLastUsed rs then rs else r :: evictLRU rs

/-- Modelled from the spec: insertion into the Reference Store — when the
store is at capacity an eviction is performed before the insertion completes
(§3 invariant, §4.4); the clock advances with every insertion. -/
def insertRecord (opts : Options) (st : EngineState) (rec : ReferenceRecord) : EngineState :=
  if opts.capacity ≤ st.store.length then
    ⟨evictLRU st.store ++ [rec], st.clock + 1⟩
  else
    ⟨st.store ++ [rec], st.clock + 1⟩

/-- Modelled from the spec: the Learning Controller `learn(conditions)` —
invoke the rigorous oracle; on success fingerprint the solution, build a
Reference Record and insert it; on failure propagate the failure unchanged
and cache nothing (§4.4, §7). -/
def learn (opts : Options)
    (oracle : Conditions → Except SolveFailure (Solution × Sensitivity))
    (st : EngineState) (conds : Conditions) :
    Except SolveFailure Solution × EngineState :=
  match oracle conds with
  | .error f => (.error f, st)
  | .ok (sol, sens) =>
      (.ok sol, insertRecord opts st ⟨conds, sol, sens, fingerprint opts sol, st.clock⟩)

/-- Modelled from the spec: the Smart Solver Facade `solve(conditions)` —
lookup, then estimate and accept, returning the estimate with the store
untouched on acceptance, and falling back to the Learning Controller on a
miss, a rejection, or disabled estimation (§4.5). -/
def solve (opts : Options)
    (oracle : Conditions → Except SolveFailure (Solution × Sensitivity))
    (st : EngineState) (conds : Conditions) :
    Except SolveFailure Solution × EngineState :=
  match lookupNearest st.store conds with
  | none => learn opts oracle st conds
  | some (ref, dist) =>
      if opts.estimationEnabled then
        match acceptVerdict opts conds dist (estimate conds ref) ref with
        | none => (.ok (estimate conds ref), st)
        | some _ => learn opts oracle st conds
      else
        learn opts oracle st conds

/-- Modelled from the spec: feasibility of a returned Solution — all
constituent amounts ≥ the configured non-negativity floor and all explicit
equality restrictions satisfied within tolerance (§3 invariant, §6). -/
def Feasible (opts : Options) (conds : Conditions) (sol : Solution) : Prop :=
  (∀ a ∈ sol.amounts, opts.amountFloor ≤ a) ∧
  (∀ r ∈ conds.restrictions, |dotVec r.coeffs sol.amounts - r.rhs| ≤ opts.balanceTol)

/-- The operations that touch the Reference Store (§8, monotonic
boundedness): a facade solve, a direct learn, or a direct insertion. -/
inductive StoreOp where
  | solveOp (conds : Conditions)
  | learnOp (conds : Conditions)
  | insertOp (rec : ReferenceRecord)
deriving DecidableEq

/-- Apply one store-touching operation to the engine state. -/
def applyOp (opts : Options)
    (oracle : Conditions → Except SolveFailure (Solution × Sensitivity))
    (st : EngineState) : StoreOp → EngineState
  | .solveOp conds => (solve opts oracle st conds).2
  | .learnOp conds => (learn opts oracle st conds).2
  | .insertOp rec => insertRecord opts st rec

/-- Run a finite sequence of store-touching operations. -/
def runOps (opts : Options)
    (oracle : Conditions → Except SolveFailure (Solution × Sensitivity))
    (st : EngineState) (ops : List StoreOp) : EngineState :=
  ops.foldl (applyOp opts oracle) st

/-- The empty engine state: an empty Reference Store. -/
def emptyState : EngineState := ⟨[], 0⟩

/-- Concrete diagnostics of a failed oracle run, used to instantiate the
theorems at concrete inputs. -/
def sampleStats : OptimumStatistics := ⟨false, 7, 9, 0, 1, 0, 0, 0, 0⟩

/-- A concrete solver failure carrying `sampleStats`. -/
def sampleFailure : SolveFailure := ⟨sampleStats⟩

/-- A concrete oracle that always fails with `sampleFailure`. -/
def failOracle : Conditions → Except SolveFailure (Solution × Sensitivity) :=
  fun _ => .error sampleFailure

/-- A concrete oracle that always returns the solution `[1]` with a zero
sensitivity. -/
def okOracle : Conditions → Except SolveFailure (Solution × Sensitivity) :=
  fun _ => .ok (⟨[1]⟩, [[0]])

/-- Concrete query conditions: the one-component vector `[0]`, no
restrictions. -/
def sampleConds : Conditions := ⟨[0], []⟩

/-- Concrete solution with the single amount 1. -/
def sampleSol : Solution := ⟨[1]⟩

/-- Concrete reference record at `sampleConds` with solution `sampleSol` and
zero sensitivity. -/
def sampleRef : ReferenceRecord := ⟨sampleConds, sampleSol, [[0]], [true], 0⟩

/-- Concrete conservative options: capacity 1, all tolerances 0, floor 0,
estimation enabled. -/
def sampleOpts : Options := ⟨1, 0, 0, 0, 0, true⟩

/-- Concrete engine state holding `sampleRef` only. -/
def sampleState : EngineState := ⟨[sampleRef], 1⟩

end SmartEngine

end Reaktoro

/-! ## Theorems — support lemmas for Part I.c -/

namespace Reaktoro.detail

theorem addCoeff_keys (result : List (String × ℚ)) (element : String) (v : ℚ) :
    (addCoeff result element v).map Prod.fst =
      if element ∈ result.map Prod.fst then result.map Prod.fst
      else result.map Prod.fst ++ [element] := by
  induction result with
  | nil => simp [addCoeff]
  | cons p ps ih =>
      rw [addCoeff]
      by_cases h : p.1 = element
      · simp [h]
      · simp only [if_neg h, List.map_cons, ih]
        by_cases h2 : element ∈ ps.map Prod.fst
        · simp [h2, Ne.symm h]
        · simp [h2, Ne.symm h]

theorem addCoeff_nodup {result : List (String × ℚ)} (element : String) (v : ℚ)
    (h : (result.map Prod.fst).Nodup) :
    ((addCoeff result element v).map Prod.fst).Nodup := by
  rw [addCoeff_keys]
  by_cases hm : element ∈ result.map Prod.fst
  · simpa [hm]
  · simp only [if_neg hm]
    have hcons : (element :: result.map Prod.fst).Nodup := List.nodup_cons.mpr ⟨hm, h⟩
    exact (List.perm_append_singleton _ _).symm.nodup hcons

theorem parseChemicalFormulaAux_nodup :
    ∀ (s : List Char) (result : List (String × ℚ)) (scalar : ℚ),
      (result.map Prod.fst).Nodup →
      ∀ r', parseChemicalFormulaAux s result scalar = some r' →
      (r'.map Prod.fst).Nodup := by
  intro s result scalar
  induction s, result, scalar using parseChemicalFormulaAux.induct with
  | case1 result scalar =>
      intro h r' hr
      rw [parseChemicalFormulaAux] at hr
      simp only [Option.some.injEq] at hr
      subst hr
      exact h
  | case2 =>
      rename_i c rest result scalar hdig pr ih
      intro h r' hr
      rw [parseChemicalFormulaAux, dif_pos hdig] at hr
      exact ih h r' hr
  | case3 =>
      rename_i c rest result scalar hdig hup pe pn ih
      intro h r' hr
      rw [parseChemicalFormulaAux, dif_neg hdig, dif_pos hup] at hr
      exact ih (addCoeff_nodup _ _ h) r' hr
  | case4 =>
      rename_i rest result scalar hs hlow hdig hup
      intro h r' hr
      rw [parseChemicalFormulaAux, dif_neg hdig, dif_neg hup, if_pos rfl] at hr
      split at hr
      · rw [if_pos hlow] at hr
        simp only [Option.some.injEq] at hr
        subst hr
        exact h
      · rename_i inside2 after2 heq
        rw [hs] at heq
        exact absurd heq (by simp)
  | case5 =>
      rename_i rest result scalar hs hlow hdig hup
      intro h r' hr
      rw [parseChemicalFormulaAux, dif_neg hdig, dif_neg hup, if_pos rfl] at hr
      split at hr
      · rw [if_neg hlow] at hr
        exact absurd hr (by simp)
      · rename_i inside2 after2 heq
        rw [hs] at heq
        exact absurd heq (by simp)
  | case6 =>
      rename_i rest result scalar inside after hs hlow hdig hup
      intro h r' hr
      rw [parseChemicalFormulaAux, dif_neg hdig, dif_neg hup, if_pos rfl] at hr
      split at hr
      · rename_i heq
        rw [hs] at heq
        exact absurd heq (by simp)
      · rename_i inside2 after2 heq
        rw [hs] at heq
        simp only [Option.some.injEq, Prod.mk.injEq] at heq
        obtain ⟨rfl, rfl⟩ := heq
        rw [if_pos hlow] at hr
        simp only [Option.some.injEq] at hr
        subst hr
        exact h
  | case7 =>
      rename_i rest result scalar inside after hs hlow pn hnone hdig hup ih
      intro h r' hr
      rw [parseChemicalFormulaAux, dif_neg hdig, dif_neg hup, if_pos rfl] at hr
      split at hr
      · rename_i heq
        rw [hs] at heq
        exact absurd heq (by simp)
      · rename_i inside2 after2 heq
        rw [hs] at heq
        simp only [Option.some.injEq, Prod.mk.injEq] at heq
        obtain ⟨rfl, rfl⟩ := heq
        rw [if_neg hlow] at hr
        simp only [] at hr
        have hnone2 : parseChemicalFormulaAux inside result
            (scalar * (parseNumAtoms after).1) = none := hnone
        rw [hnone2] at hr
        simp at hr
  | case8 =>
      rename_i rest result scalar inside after hs hlow pn r1 hsome hdig hup ih2 ih1
      intro h r' hr
      rw [parseChemicalFormulaAux, dif_neg hdig, dif_neg hup, if_pos rfl] at hr
      split at hr
      · rename_i heq
        rw [hs] at heq
        exact absurd heq (by simp)
      · rename_i inside2 after2 heq
        rw [hs] at heq
        simp only [Option.some.injEq, Prod.mk.injEq] at heq
        obtain ⟨rfl, rfl⟩ := heq
        rw [if_neg hlow] at hr
        simp only [] at hr
        have hsome2 : parseChemicalFormulaAux inside result
            (scalar * (parseNumAtoms after).1) = some r1 := hsome
        rw [hsome2] at hr
        have ih1b : (r1.map Prod.fst).Nodup → ∀ r',
            parseChemicalFormulaAux (parseNumAtoms after).2 r1 scalar = some r' →
            (r'.map Prod.fst).Nodup := ih1
        exact ih1b (ih2 h r1 hsome) r' hr
  | case9 =>
      rename_i c rest result scalar hdig hup hpar hstar ih
      intro h r' hr
      rw [parseChemicalFormulaAux, dif_neg hdig, dif_neg hup, if_neg hpar, if_pos hstar] at hr
      exact ih h r' hr
  | case10 =>
      rename_i c rest result scalar hdig hup hpar hstar hcharge
      intro h r' hr
      rw [parseChemicalFormulaAux, dif_neg hdig, dif_neg hup, if_neg hpar, if_neg hstar,
        if_pos hcharge] at hr
      simp only [Option.some.injEq] at hr
      subst hr
      exact h
  | case11 =>
      rename_i c rest result scalar hdig hup hpar hstar hcharge
      intro h r' hr
      rw [parseChemicalFormulaAux, dif_neg hdig, dif_neg hup, if_neg hpar, if_neg hstar,
        if_neg hcharge] at hr
      exact absurd hr (by simp)

end Reaktoro.detail

/-! ## Theorems — support lemmas for Parts I.a/I.b and Part II -/

namespace Reaktoro

theorem waterMolarMass_pos : 0 < waterMolarMass := by norm_num [waterMolarMass]

namespace SmartEngine

theorem learn_fst (opts : Options)
    (oracle : Conditions → Except SolveFailure (Solution × Sensitivity))
    (st : EngineState) (conds : Conditions) :
    (learn opts oracle st conds).1 = (oracle conds).map Prod.fst := by
  rw [learn]
  cases oracle conds with
  | error f => rfl
  | ok p => obtain ⟨sol, sens⟩ := p; rfl

theorem evictLRU_length (l : List ReferenceRecord) (h : l ≠ []) :
    (evictLRU l).length + 1 = l.length := by
  induction l with
  | nil => exact absurd rfl h
  | cons r rs ih =>
      cases rs with
      | nil => simp [evictLRU]
      | cons r2 rs2 =>
          rw [evictLRU]
          on_goal 2 => simp
          by_cases hle : r.lastUsed ≤ minLastUsed (r2 :: rs2)
          · rw [if_pos hle]
            simp
          · rw [if_neg hle]
            have := ih (by simp)
            simp only [List.length_cons] at *
            omega

theorem insertRecord_store_le (opts : Options) (st : EngineState) (rec : ReferenceRecord)
    (hcap : 1 ≤ opts.capacity) (h : st.store.length ≤ opts.capacity) :
    (insertRecord opts st rec).store.length ≤ opts.capacity := by
  rw [insertRecord]
  by_cases hc : opts.capacity ≤ st.store.length
  · rw [if_pos hc]
    have hne : st.store ≠ [] := by
      intro he
      rw [he] at hc
      simp at hc
      omega
    have := evictLRU_length st.store hne
    simp only [List.length_append, List.length_cons, List.length_nil]
    omega
  · rw [if_neg hc]
    simp only [List.length_append, List.length_cons, List.length_nil]
    omega

theorem learn_store_le (opts : Options)
    (oracle : Conditions → Except SolveFailure (Solution × Sensitivity))
    (st : EngineState) (conds : Conditions)
    (hcap : 1 ≤ opts.capacity) (h : st.store.length ≤ opts.capacity) :
    ((learn opts oracle st conds).2).store.length ≤ opts.capacity := by
  rw [learn]
  cases oracle conds with
  | error f => exact h
  | ok p =>
      obtain ⟨sol, sens⟩ := p
      exact insertRecord_store_le opts st _ hcap h

theorem solve_store_le (opts : Options)
    (oracle : Conditions → Except SolveFailure (Solution × Sensitivity))
    (st : EngineState) (conds : Conditions)
    (hcap : 1 ≤ opts.capacity) (h : st.store.length ≤ opts.capacity) :
    ((solve opts oracle st conds).2).store.length ≤ opts.capacity := by
  rw [solve]
  cases hl : lookupNearest st.store conds with
  | none => exact learn_store_le opts oracle st conds hcap h
  | some rd =>
      obtain ⟨ref, dist⟩ := rd
      cases he : opts.estimationEnabled
      · simp only [he, Bool.false_eq_true, if_false]
        exact learn_store_le opts oracle st conds hcap h
      · simp only [he, if_true]
        cases acceptVerdict opts conds dist (estimate conds ref) ref with
        | none => exact h
        | some _ => exact learn_store_le opts oracle st conds hcap h

theorem applyOp_store_le (opts : Options)
    (oracle : Conditions → Except SolveFailure (Solution × Sensitivity))
    (st : EngineState) (op : StoreOp)
    (hcap : 1 ≤ opts.capacity) (h : st.store.length ≤ opts.capacity) :
    (applyOp opts oracle st op).store.length ≤ opts.capacity := by
  cases op with
  | solveOp c => exact solve_store_le opts oracle st c hcap h
  | learnOp c => exact learn_store_le opts oracle st c hcap h
  | insertOp r => exact insertRecord_store_le opts st r hcap h

theorem acceptVerdict_none_iff (opts : Options) (conds : Conditions) (dist : ℚ)
    (est : Solution) (ref : ReferenceRecord) :
    acceptVerdict opts conds dist est ref = none ↔
      distanceCheck opts dist = true ∧ feasibilityCheck opts est = true ∧
      localErrorCheck opts conds ref = true ∧ balanceCheck opts conds est = true := by
  cases h1 : distanceCheck opts dist <;> cases h2 : feasibilityCheck opts est <;>
    cases h3 : localErrorCheck opts conds ref <;> cases h4 : balanceCheck opts conds est <;>
      simp [acceptVerdict, h1, h2, h3, h4]

theorem feasibilityCheck_iff (opts : Options) (est : Solution) :
    feasibilityCheck opts est = true ↔ ∀ a ∈ est.amounts, opts.amountFloor ≤ a := by
  simp [feasibilityCheck]

theorem balanceCheck_iff (opts : Options) (conds : Conditions) (est : Solution) :
    balanceCheck opts conds est = true ↔
      ∀ r ∈ conds.restrictions, |dotVec r.coeffs est.amounts - r.rhs| ≤ opts.balanceTol := by
  simp [balanceCheck]

theorem learn_ok_feasible (opts : Options)
    (oracle : Conditions → Except SolveFailure (Solution × Sensitivity))
    (st : EngineState) (conds : Conditions) (sol : Solution) (st2 : EngineState)
    (horacle : ∀ c s S, oracle c = .ok (s, S) → Feasible opts c s)
    (h : learn opts oracle st conds = (.ok sol, st2)) :
    Feasible opts conds sol := by
  rw [learn] at h
  cases ho : oracle conds with
  | error f =>
      rw [ho] at h
      simp at h
  | ok p =>
      obtain ⟨s0, S0⟩ := p
      rw [ho] at h
      simp only [Prod.mk.injEq, Except.ok.injEq] at h
      obtain ⟨rfl, -⟩ := h
      exact horacle conds s0 S0 ho

theorem learn_error_then (opts : Options)
    (oracle : Conditions → Except SolveFailure (Solution × Sensitivity))
    (st : EngineState) (conds : Conditions) (f : SolveFailure)
    (h : (learn opts oracle st conds).1 = .error f) :
    oracle conds = .error f ∧ (learn opts oracle st conds).2 = st := by
  rw [learn] at h ⊢
  cases ho : oracle conds with
  | error e =>
      rw [ho] at h
      simp only [Except.error.injEq] at h
      subst h
      exact ⟨rfl, rfl⟩
  | ok p =>
      obtain ⟨s0, S0⟩ := p
      rw [ho] at h
      simp at h

end SmartEngine

end Reaktoro

/-! ## Claim theorems

C1–C7 concern the smart acceleration engine, settled against the Part II
model; C8–C10 concern the Part I embeddings of `src/Reaktoro/Core/Utils.cpp`. -/

open Reaktoro.SmartEngine

/-- C1: for every input Conditions, `solve` either returns a Solution in which
every constituent amount is ≥ the configured non-negativity floor and every
explicit equality restriction is satisfied within tolerance, or it propagates
a failure — it never returns an infeasible Solution (assuming the rigorous
oracle's successful answers are feasible, which is its §6 contract). -/
theorem solve_returns_feasible (opts : Options)
    (oracle : Conditions → Except SolveFailure (Solution × Sensitivity))
    (st : EngineState) (conds : Conditions) (sol : Solution) (st2 : EngineState)
    (horacle : ∀ c s S, oracle c = .ok (s, S) → Feasible opts c s)
    (h : solve opts oracle st conds = (.ok sol, st2)) :
    Feasible opts conds sol := by
  rw [solve] at h
  split at h
  · exact learn_ok_feasible opts oracle st conds sol st2 horacle h
  · rename_i ref dist hlk
    split at h
    · split at h
      · rename_i hv
        simp only [Prod.mk.injEq, Except.ok.injEq] at h
        obtain ⟨rfl, -⟩ := h
        have hc := (acceptVerdict_none_iff opts conds dist (estimate conds ref) ref).mp hv
        exact ⟨(feasibilityCheck_iff opts _).mp hc.2.1,
          (balanceCheck_iff opts conds _).mp hc.2.2.2⟩
      · exact learn_ok_feasible opts oracle st conds sol st2 horacle h
    · exact learn_ok_feasible opts oracle st conds sol st2 horacle h

/-- Witness for C1 at concrete inputs: with a failing oracle (so its
soundness hypothesis holds vacuously) and a stored reference whose estimate
is accepted, the returned solution is feasible. -/
theorem solve_returns_feasible_witness :
    solve sampleOpts failOracle sampleState sampleConds = (.ok sampleSol, sampleState) ∧
    Feasible sampleOpts sampleConds sampleSol := by
  have h : solve sampleOpts failOracle sampleState sampleConds =
      (.ok sampleSol, sampleState) := by
    norm_num [solve, lookupNearest, mostRecentFingerprint, clusterOf, nearestIn, dist2,
      subVec, estimate, addVec, matVec, dotVec, acceptVerdict, distanceCheck,
      feasibilityCheck, localErrorCheck, balanceCheck, sampleState, sampleRef,
      sampleConds, sampleSol, sampleOpts]
  exact ⟨h, solve_returns_feasible sampleOpts failOracle sampleState sampleConds
    sampleSol sampleState (fun c s S hx => Except.noConfusion hx) h⟩

/-- C2: starting from an empty store, after any finite sequence of
solve/learn/insert operations the Reference Store's record count never
exceeds the configured capacity, and any insertion from a within-capacity
state stays within capacity because eviction happens before insertion
completes. -/
theorem referenceStore_bounded (opts : Options)
    (oracle : Conditions → Except SolveFailure (Solution × Sensitivity))
    (ops : List StoreOp) (hcap : 1 ≤ opts.capacity) :
    (runOps opts oracle emptyState ops).store.length ≤ opts.capacity ∧
    ∀ st rec, st.store.length ≤ opts.capacity →
      (insertRecord opts st rec).store.length ≤ opts.capacity := by
  constructor
  · have main : ∀ (l : List StoreOp) (st : EngineState),
        st.store.length ≤ opts.capacity →
        (runOps opts oracle st l).store.length ≤ opts.capacity := by
      intro l
      induction l with
      | nil => intro st h; exact h
      | cons op rest ih =>
          intro st h
          exact ih (applyOp opts oracle st op) (applyOp_store_le opts oracle st op hcap h)
    exact main ops emptyState (by simp [emptyState])
  · intro st rec h
    exact insertRecord_store_le opts st rec hcap h

/-- Witness for C2: capacity 1, three store-touching operations (a solve and
two direct insertions); the record count stays ≤ 1. -/
theorem referenceStore_bounded_witness :
    1 ≤ sampleOpts.capacity ∧
    (runOps sampleOpts failOracle emptyState
      [StoreOp.solveOp sampleConds, StoreOp.insertOp sampleRef,
        StoreOp.insertOp sampleRef]).store.length ≤ sampleOpts.capacity :=
  ⟨by norm_num [sampleOpts],
    (referenceStore_bounded sampleOpts failOracle
      [StoreOp.solveOp sampleConds, StoreOp.insertOp sampleRef,
        StoreOp.insertOp sampleRef] (by norm_num [sampleOpts])).1⟩

/-- C3: the Acceptance Controller applies its four checks in exactly the
order distance bound, feasibility, local-error bound, balance residual, and
the first failing check determines the verdict without any later check
influencing it (short-circuit). -/
theorem acceptVerdict_short_circuit_order (opts : Options) (conds : Conditions)
    (dist : ℚ) (est : Solution) (ref : ReferenceRecord) :
    (acceptVerdict opts conds dist est ref = some RejectReason.distance ↔
      distanceCheck opts dist = false) ∧
    (acceptVerdict opts conds dist est ref = some RejectReason.feasibility ↔
      distanceCheck opts dist = true ∧ feasibilityCheck opts est = false) ∧
    (acceptVerdict opts conds dist est ref = some RejectReason.localError ↔
      distanceCheck opts dist = true ∧ feasibilityCheck opts est = true ∧
      localErrorCheck opts conds ref = false) ∧
    (acceptVerdict opts conds dist est ref = some RejectReason.balance ↔
      distanceCheck opts dist = true ∧ feasibilityCheck opts est = true ∧
      localErrorCheck opts conds ref = true ∧ balanceCheck opts conds est = false) ∧
    (acceptVerdict opts conds dist est ref = none ↔
      distanceCheck opts dist = true ∧ feasibilityCheck opts est = true ∧
      localErrorCheck opts conds ref = true ∧ balanceCheck opts conds est = true) := by
  cases h1 : distanceCheck opts dist <;> cases h2 : feasibilityCheck opts est <;>
    cases h3 : localErrorCheck opts conds ref <;> cases h4 : balanceCheck opts conds est <;>
      simp [acceptVerdict, h1, h2, h3, h4]

/-- C4: `estimate` equals the reference Solution plus the stored Sensitivity
applied to the Conditions difference (one matrix-vector product, no
iteration), and estimation has no side effects: when an estimate is accepted,
`solve` returns it with the Reference Store and the derived Cluster Index
exactly as they were. -/
theorem estimate_taylor_and_pure (conds : Conditions) (ref : ReferenceRecord) :
    (estimate conds ref).amounts =
      addVec ref.solution.amounts
        (matVec ref.sensitivity (subVec conds.vec ref.conditions.vec)) ∧
    ∀ (opts : Options)
      (oracle : Conditions → Except SolveFailure (Solution × Sensitivity))
      (st : EngineState) (dist : ℚ),
      lookupNearest st.store conds = some (ref, dist) →
      opts.estimationEnabled = true →
      acceptVerdict opts conds dist (estimate conds ref) ref = none →
      solve opts oracle st conds = (.ok (estimate conds ref), st) := by
  refine ⟨rfl, fun opts oracle st dist hl he hv => ?_⟩
  rw [solve]
  simp [hl, he, hv]

/-- Witness for C4 at concrete inputs: the stored reference is found at
distance 0, its estimate is accepted, and `solve` returns the estimate with
the state unchanged. -/
theorem estimate_taylor_and_pure_witness :
    lookupNearest sampleState.store sampleConds = some (sampleRef, 0) ∧
    sampleOpts.estimationEnabled = true ∧
    acceptVerdict sampleOpts sampleConds 0 (estimate sampleConds sampleRef) sampleRef =
      none ∧
    solve sampleOpts failOracle sampleState sampleConds =
      (.ok (estimate sampleConds sampleRef), sampleState) := by
  have hl : lookupNearest sampleState.store sampleConds = some (sampleRef, 0) := by
    norm_num [lookupNearest, mostRecentFingerprint, clusterOf, nearestIn, dist2, subVec,
      sampleState, sampleRef, sampleConds]
  have hv : acceptVerdict sampleOpts sampleConds 0 (estimate sampleConds sampleRef)
      sampleRef = none := by
    norm_num [acceptVerdict, distanceCheck, feasibilityCheck, localErrorCheck,
      balanceCheck, dist2, subVec, dotVec, estimate, addVec, matVec,
      sampleOpts, sampleConds, sampleSol, sampleRef]
  exact ⟨hl, rfl, hv, (estimate_taylor_and_pure sampleConds sampleRef).2 sampleOpts
    failOracle sampleState 0 hl rfl hv⟩

/-- C5: when the rigorous oracle fails, the failure is propagated to the
caller unchanged (carrying the oracle's diagnostic payload, no retry, no
partial result), and the Reference Store and Cluster Index are exactly as
before: a failed solve is never inserted. -/
theorem solve_propagates_oracle_failure (opts : Options)
    (oracle : Conditions → Except SolveFailure (Solution × Sensitivity))
    (st : EngineState) (conds : Conditions) :
    (∀ f, oracle conds = .error f → learn opts oracle st conds = (.error f, st)) ∧
    (∀ f, (solve opts oracle st conds).1 = .error f →
      oracle conds = .error f ∧ (solve opts oracle st conds).2 = st) := by
  constructor
  · intro f hf
    rw [learn, hf]
  · intro f hf
    have hcases : (∃ ref, solve opts oracle st conds = (.ok (estimate conds ref), st)) ∨
        solve opts oracle st conds = learn opts oracle st conds := by
      rw [solve]
      split
      · exact Or.inr rfl
      · rename_i ref dist hlk
        split
        · split
          · rename_i hv
            exact Or.inl ⟨ref, rfl⟩
          · exact Or.inr rfl
        · exact Or.inr rfl
    obtain ⟨ref, heq⟩ | heq := hcases
    · rw [heq] at hf
      simp at hf
    · rw [heq] at hf ⊢
      exact learn_error_then opts oracle st conds f hf

/-- Witness for C5: the always-failing oracle's failure (with its diagnostic
payload) is returned unchanged by `learn` and the state is untouched. -/
theorem solve_propagates_oracle_failure_witness :
    failOracle sampleConds = .error sampleFailure ∧
    learn sampleOpts failOracle emptyState sampleConds =
      (.error sampleFailure, emptyState) :=
  ⟨rfl, (solve_propagates_oracle_failure sampleOpts failOracle emptyState
    sampleConds).1 sampleFailure rfl⟩

/-- C6: two-run determinism — for a fixed Reference Store state and fixed
Conditions, two executions of `solve` return identical results (estimation
and acceptance are pure functions of the stored state and the query; the
returned value does not depend on the rest of the engine state). -/
theorem solve_two_runs_identical (opts : Options)
    (oracle : Conditions → Except SolveFailure (Solution × Sensitivity))
    (st1 st2 : EngineState) (conds : Conditions)
    (h : st1.store = st2.store) :
    (solve opts oracle st1 conds).1 = (solve opts oracle st2 conds).1 := by
  have hl12 : lookupNearest st1.store conds = lookupNearest st2.store conds := by rw [h]
  rw [solve, solve, hl12]
  split
  · exact (learn_fst opts oracle st1 conds).trans (learn_fst opts oracle st2 conds).symm
  · rename_i ref dist hlk
    split
    · split
      · rfl
      · exact (learn_fst opts oracle st1 conds).trans
          (learn_fst opts oracle st2 conds).symm
    · exact (learn_fst opts oracle st1 conds).trans (learn_fst opts oracle st2 conds).symm

/-- Witness for C6: two states with the same (empty) store but different
clocks give identical solve results. -/
theorem solve_two_runs_identical_witness :
    (EngineState.mk [] 0).store = (EngineState.mk [] 5).store ∧
    (solve sampleOpts okOracle (EngineState.mk [] 0) sampleConds).1 =
      (solve sampleOpts okOracle (EngineState.mk [] 5) sampleConds).1 :=
  ⟨rfl, solve_two_runs_identical sampleOpts okOracle (EngineState.mk [] 0)
    (EngineState.mk [] 5) sampleConds rfl⟩

/-- C7: with estimation disabled every query takes the Learn path and `solve`
returns exactly the rigorous oracle's output for those conditions. -/
theorem solve_disabled_estimation_exact (opts : Options)
    (oracle : Conditions → Except SolveFailure (Solution × Sensitivity))
    (st : EngineState) (conds : Conditions)
    (h : opts.estimationEnabled = false) :
    (solve opts oracle st conds).1 = (oracle conds).map Prod.fst := by
  rw [solve]
  cases hl : lookupNearest st.store conds with
  | none => exact learn_fst opts oracle st conds
  | some rd =>
      obtain ⟨ref, dist⟩ := rd
      rw [h]
      exact learn_fst opts oracle st conds

/-- Witness for C7: with estimation switched off and a stored reference
available, the result is still exactly the oracle's output. -/
theorem solve_disabled_estimation_exact_witness :
    (Options.mk 1 0 0 0 0 false).estimationEnabled = false ∧
    (solve (Options.mk 1 0 0 0 0 false) okOracle sampleState sampleConds).1 =
      (okOracle sampleConds).map Prod.fst :=
  ⟨rfl, solve_disabled_estimation_exact (Options.mk 1 0 0 0 0 false) okOracle
    sampleState sampleConds rfl⟩

/-- C8: `molarFractions` is total on every amounts vector, returns fraction 1
for a single species, divides by the total when the total is nonzero, and
returns a zero-initialized vector of the same size when the total is zero, so
the division is always guarded. -/
theorem molarFractions_total_guarded (n : List ℚ) :
    (n.length = 1 → Reaktoro.molarFractions n = [1]) ∧
    (n.length ≠ 1 → n.sum ≠ 0 →
      Reaktoro.molarFractions n = n.map (fun a => a / n.sum)) ∧
    (n.length ≠ 1 → n.sum = 0 →
      Reaktoro.molarFractions n = List.replicate n.length 0) := by
  refine ⟨fun h1 => ?_, fun h1 h2 => ?_, fun h1 h2 => ?_⟩
  · simp [Reaktoro.molarFractions, h1]
  · simp [Reaktoro.molarFractions, h1, h2]
  · simp [Reaktoro.molarFractions, h1, h2]

/-- Witness for C8 at a concrete input: a two-entry vector with nonzero total
is normalized by the total. -/
theorem molarFractions_total_guarded_witness :
    ([2, 6] : List ℚ).length ≠ 1 ∧ ([2, 6] : List ℚ).sum ≠ 0 ∧
      Reaktoro.molarFractions [2, 6] = [2, 6].map (fun a => a / ([2, 6] : List ℚ).sum) :=
  ⟨by decide, by norm_num,
    (molarFractions_total_guarded [2, 6]).2.1 (by decide) (by norm_num)⟩

/-- C9: every accepted formula parses to at most one pair per element symbol
(repeated occurrences, including inside scaled parenthesized groups and
hydrate parts after `*` or `:`, are accumulated into one summed coefficient),
every final coefficient is the round-off cleanup `(c + 1e8) - 1e8` of the
accumulated coefficient, and formulas starting with `e-` or `e[-]` yield the
empty list. -/
theorem parseChemicalFormula_unique_rounded (f : String) (ps : List (String × ℚ))
    (h : Reaktoro.detail.parseChemicalFormula f = some ps) :
    (ps.map Prod.fst).Nodup ∧
    ((Reaktoro.detail.startswith ['e', '-'] f.toList ||
        Reaktoro.detail.startswith ['e', '[', '-', ']'] f.toList) = true → ps = []) ∧
    ((Reaktoro.detail.startswith ['e', '-'] f.toList ||
        Reaktoro.detail.startswith ['e', '[', '-', ']'] f.toList) = false →
      ∃ raw, Reaktoro.detail.parseChemicalFormulaAux f.toList [] 1 = some raw ∧
        ps = raw.map (fun p => (p.1, Reaktoro.detail.roundCoeff p.2))) := by
  rw [Reaktoro.detail.parseChemicalFormula] at h
  by_cases hc : (Reaktoro.detail.startswith ['e', '-'] f.toList ||
      Reaktoro.detail.startswith ['e', '[', '-', ']'] f.toList) = true
  · rw [if_pos hc] at h
    simp only [Option.some.injEq] at h
    subst h
    exact ⟨List.nodup_nil, fun _ => rfl, fun hf => absurd hc (by rw [hf]; simp)⟩
  · rw [if_neg hc] at h
    obtain ⟨raw, hraw, hps⟩ := Option.map_eq_some'.mp h
    subst hps
    refine ⟨?_, fun ht => absurd ht hc, fun _ => ⟨raw, hraw, rfl⟩⟩
    have hn := Reaktoro.detail.parseChemicalFormulaAux_nodup f.toList [] 1
      (by simp) raw hraw
    simpa [List.map_map, Function.comp] using hn

/-- Witness for C9 at two concrete formulas: `CaCO3*2H2O` parses with unique
element symbols (the oxygens of the carbonate and hydrate parts are merged
into one coefficient and the hydrate multiplier 2 scales only the hydrate),
and `Ca(aq` — an unmatched `(` whose tail is all lowercase, which the C++
accepts — parses to calcium alone. -/
theorem parseChemicalFormula_unique_rounded_witness :
    (Reaktoro.detail.parseChemicalFormula "CaCO3*2H2O" =
        some [("Ca", 1), ("C", 1), ("O", 5), ("H", 4)] ∧
      (([("Ca", (1 : ℚ)), ("C", 1), ("O", 5), ("H", 4)]).map Prod.fst).Nodup) ∧
    (Reaktoro.detail.parseChemicalFormula "Ca(aq" = some [("Ca", 1)] ∧
      (([("Ca", (1 : ℚ))]).map Prod.fst).Nodup) := by
  have hev : Reaktoro.detail.parseChemicalFormula "CaCO3*2H2O" =
      some [("Ca", 1), ("C", 1), ("O", 5), ("H", 4)] := by
    rw [Reaktoro.detail.parseChemicalFormula]
    simp +decide [Reaktoro.detail.startswith, Reaktoro.detail.parseChemicalFormulaAux,
      Reaktoro.detail.parseNumAtoms, Reaktoro.detail.parseElementAtom,
      Reaktoro.detail.addCoeff, Reaktoro.detail.atof, Reaktoro.detail.digitsVal,
      Reaktoro.detail.isNumChar, Reaktoro.detail.isElementBodyChar,
      Reaktoro.detail.roundCoeff, List.takeWhile, List.dropWhile]
    norm_num
  have hev2 : Reaktoro.detail.parseChemicalFormula "Ca(aq" = some [("Ca", 1)] := by
    rw [Reaktoro.detail.parseChemicalFormula]
    simp +decide [Reaktoro.detail.startswith, Reaktoro.detail.parseChemicalFormulaAux,
      Reaktoro.detail.parseNumAtoms, Reaktoro.detail.parseElementAtom,
      Reaktoro.detail.addCoeff, Reaktoro.detail.atof, Reaktoro.detail.digitsVal,
      Reaktoro.detail.isNumChar, Reaktoro.detail.isElementBodyChar,
      Reaktoro.detail.roundCoeff, Reaktoro.detail.splitParen,
      List.takeWhile, List.dropWhile]
  exact ⟨⟨hev, (parseChemicalFormula_unique_rounded "CaCO3*2H2O" _ hev).1⟩,
    ⟨hev2, (parseChemicalFormula_unique_rounded "Ca(aq" _ hev2).1⟩⟩

/-- C10: `molalities` never divides by zero: with more than one species and a
zero water amount it returns zeros except `1/waterMolarMass` at the water
index; with a nonzero water amount it divides by `n[iH2O] * waterMolarMass`;
and with a single species the water entry is `1/waterMolarMass`. -/
theorem molalities_guarded (n : List ℚ) (iH2O : ℕ) (h : iH2O < n.length) :
    (1 < n.length → n.getD iH2O 0 = 0 →
      Reaktoro.molalities n iH2O =
        (List.replicate n.length 0).set iH2O (1 / Reaktoro.waterMolarMass)) ∧
    (1 < n.length → n.getD iH2O 0 ≠ 0 →
      Reaktoro.molalities n iH2O =
        n.map (fun a => a / (n.getD iH2O 0 * Reaktoro.waterMolarMass))) ∧
    (n.length = 1 →
      (Reaktoro.molalities n iH2O).getD iH2O 0 = 1 / Reaktoro.waterMolarMass) := by
  have hw : Reaktoro.waterMolarMass ≠ 0 := ne_of_gt Reaktoro.waterMolarMass_pos
  refine ⟨fun h1 h2 => ?_, fun h1 h2 => ?_, fun h1 => ?_⟩
  · have hlen : n.length ≠ 1 := by omega
    have hk : ¬ n.getD iH2O 0 * Reaktoro.waterMolarMass ≠ 0 := by
      rw [h2]; simp
    rw [Reaktoro.molalities, if_neg hlen, if_neg hk]
  · have hlen : n.length ≠ 1 := by omega
    have hk : n.getD iH2O 0 * Reaktoro.waterMolarMass ≠ 0 := mul_ne_zero h2 hw
    rw [Reaktoro.molalities, if_neg hlen, if_pos hk]
  · obtain ⟨a, rfl⟩ := List.length_eq_one.mp h1
    have hi : iH2O = 0 := by omega
    subst hi
    simp [Reaktoro.molalities]

/-- Witness for C10: a three-species vector with zero water amount maps to the
guarded zero-division branch, evaluated concretely. -/
theorem molalities_guarded_witness :
    (1 : ℕ) < ([5, 0, 7] : List ℚ).length ∧ ([5, 0, 7] : List ℚ).getD 1 0 = 0 ∧
    Reaktoro.molalities [5, 0, 7] 1 =
      (List.replicate 3 0).set 1 (1 / Reaktoro.waterMolarMass) :=
  ⟨by decide, by norm_num,
    (molalities_guarded [5, 0, 7] 1 (by decide)).1 (by decide) (by norm_num)⟩
